import Mathlib

/-!
# Verification of the-backtester's simulation/execution engine and optimizer

The repository exposes its core (`run_backtest`, the cost model, the
portfolio ledger, `optimize_strategy`) only through notebooks and docs;
the engine implementation itself is not shipped in source form.  The
definitions below are therefore modelled from the specification
(spec.md §3–§5, §7–§8): prices and quantities are rationals, timestamps
are naturals, symbols are strings, and the engine is a pure fold over
the common timestamp grid.  Python's mutable `params` dict (aliased
across strategy invocations within one run) is modelled by threading an
explicit parameter association list through the step function.
-/

namespace Backtester

set_option maxRecDepth 100000

abbrev Symbol := String
abbrev Timestamp := ℕ
abbrev Price := ℚ

/-- Modelled from the spec: one OHLCV observation for one symbol at one
timestamp (spec.md §3 "Bar").  The `open` field is named `op` because
`open` is a Lean keyword. -/
structure Bar where
  ts : Timestamp
  op : Price
  hi : Price
  lo : Price
  close : Price
  vol : Price
deriving DecidableEq

/-- Modelled from the spec: market data maps each symbol to its
time-ordered sequence of bars (spec.md §6 data input contract). -/
abbrev MarketData := List (Symbol × List Bar)

inductive Side where
  | buy
  | sell
deriving DecidableEq

/-- Modelled from the spec: an order `{symbol, side, size}` with positive
requested quantity (spec.md §3 "Order"). -/
structure Order where
  symbol : Symbol
  side : Side
  size : ℚ
deriving DecidableEq

/-- Modelled from the spec: the result of applying the cost model to an
order; failed fills (order rejections) are recorded with `ok = false`
(spec.md §3 "Fill", §7 OrderRejection). -/
structure Fill where
  symbol : Symbol
  side : Side
  requestedSize : ℚ
  fillPrice : ℚ
  commission : ℚ
  ts : Timestamp
  ok : Bool
deriving DecidableEq

/-- Modelled from the spec: strategy return value — the stringly-typed
`list | "close_all" | []` Python union rendered as a tagged variant
(spec.md §4.1 step 3, §9). -/
inductive StrategyResult where
  | noAction
  | closeAll
  | orders (os : List Order)
deriving DecidableEq

/-- Parameter mapping: name → scalar value (spec.md §3 "ParameterSet"). -/
abbrev Params := List (String × ℚ)

/-- A strategy consumes the visible window, a position snapshot, the
current timestamp and the parameter mapping; it returns its signal
together with the (possibly mutated) parameter mapping — the explicit
rendering of Python's in-place `params['_key']` mutation (spec.md §5). -/
abbrev Strategy := MarketData → List (Symbol × ℚ) → Timestamp → Params → StrategyResult × Params

/-! ## Position association list -/

/-- Signed position lookup; absent symbols hold position 0
(spec.md §3 "Position"). -/
def getPos (ps : List (Symbol × ℚ)) (s : Symbol) : ℚ :=
  match ps.find? (fun p => p.1 == s) with
  | none => 0
  | some p => p.2

/-- Replace symbol `s`'s entry by `q` (removing any stale entries). -/
def setPos (ps : List (Symbol × ℚ)) (s : Symbol) (q : ℚ) : List (Symbol × ℚ) :=
  (s, q) :: ps.filter (fun p => ¬ (p.1 == s))

theorem find?_filter_keyNe (ps : List (Symbol × ℚ)) (s s' : Symbol) (h : s' ≠ s) :
    (ps.filter (fun p => ¬ (p.1 == s))).find? (fun p => p.1 == s')
      = ps.find? (fun p => p.1 == s') := by
  induction ps with
  | nil => rfl
  | cons a l ih =>
    rw [List.filter_cons]
    cases hb : (a.1 == s) with
    | true =>
      have ha : a.1 = s := by simpa using hb
      have hns' : ((fun p : Symbol × ℚ => p.1 == s') a) = false := by
        simp only [ha, beq_eq_false_iff_ne, ne_eq]
        exact fun hc => h hc.symm
      rw [if_neg (by simp [hb])]
      rw [List.find?_cons_of_neg _ (by simp [hns'])]
      exact ih
    | false =>
      rw [if_pos (by simp [hb])]
      cases hc : ((fun p : Symbol × ℚ => p.1 == s') a) with
      | true =>
        rw [show (a :: l.filter (fun p => ¬ (p.1 == s))).find? (fun p => p.1 == s')
              = some a from List.find?_cons_of_pos _ hc,
          show (a :: l).find? (fun p => p.1 == s') = some a from
            List.find?_cons_of_pos _ hc]
      | false =>
        rw [show (a :: l.filter (fun p => ¬ (p.1 == s))).find? (fun p => p.1 == s')
              = (l.filter (fun p => ¬ (p.1 == s))).find? (fun p => p.1 == s') from
            List.find?_cons_of_neg _ (by simp [hc]),
          show (a :: l).find? (fun p => p.1 == s') = l.find? (fun p => p.1 == s') from
            List.find?_cons_of_neg _ (by simp [hc])]
        exact ih

theorem getPos_setPos_self (ps : List (Symbol × ℚ)) (s : Symbol) (q : ℚ) :
    getPos (setPos ps s q) s = q := by
  unfold getPos setPos
  rw [List.find?_cons_of_pos _ (by simp)]

theorem getPos_setPos_ne (ps : List (Symbol × ℚ)) (s s' : Symbol) (q : ℚ)
    (h : s' ≠ s) : getPos (setPos ps s q) s' = getPos ps s' := by
  unfold getPos setPos
  rw [List.find?_cons_of_neg _ (by simpa using fun hc => h hc.symm)]
  rw [find?_filter_keyNe ps s s' h]

theorem getPos_of_mem_nodup (ps : List (Symbol × ℚ)) (p : Symbol × ℚ)
    (hnd : (ps.map Prod.fst).Nodup) (hmem : p ∈ ps) : getPos ps p.1 = p.2 := by
  induction ps with
  | nil => cases hmem
  | cons a l ih =>
    rcases List.mem_cons.mp hmem with h | h
    · subst h
      unfold getPos
      simp [List.find?_cons]
    · have hnd' := (List.nodup_cons.mp hnd)
      have hne : a.1 ≠ p.1 := by
        intro hc
        exact hnd'.1 (hc ▸ List.mem_map_of_mem Prod.fst h)
      unfold getPos
      simp only [List.find?_cons]
      have : (a.1 == p.1) = false := by simpa using hne
      simp only [this]
      exact ih hnd'.2 h

/-! ## Cost Model (spec.md §4.2) -/

/-- Modelled from the spec: the `linear` slippage model adjusts the
reference price by `± reference_price × slippage_bps / 10000`, sign
matching the order's side (spec.md §4.2). -/
def slippedPrice (side : Side) (refPrice slippageBps : ℚ) : ℚ :=
  match side with
  | .buy => refPrice * (1 + slippageBps / 10000)
  | .sell => refPrice * (1 - slippageBps / 10000)

/-- Modelled from the spec: the Cost Model's
`apply(order, reference_price, commission_rate, slippage_model, slippage_bps)`
producing a Fill, with commission `fill_price × size × commission_rate`
(spec.md §4.2).  The slippage-model name is validated at run start, so
only the linear model reaches this point. -/
def applyCost (ord : Order) (refPrice commissionRate slippageBps : ℚ)
    (t : Timestamp) : Fill :=
  let fp := slippedPrice ord.side refPrice slippageBps
  { symbol := ord.symbol
    side := ord.side
    requestedSize := ord.size
    fillPrice := fp
    commission := fp * ord.size * commissionRate
    ts := t
    ok := true }

/-! ## Portfolio Ledger (spec.md §4.3) -/

/-- Modelled from the spec: `{cash, positions}` owned by the Portfolio
Ledger (spec.md §3 "PortfolioState"). -/
structure PortfolioState where
  cash : ℚ
  positions : List (Symbol × ℚ)
deriving DecidableEq

/-- Modelled from the spec: the Portfolio Ledger's `apply(fill)`.  Cash
decreases by `fill_price × size + commission` on a buy and increases by
`fill_price × size − commission` on a sell; the position moves by the
signed size.  The function is total: no fill is ever rejected for
insufficient cash or position (spec.md §4.3). -/
def applyFill (pf : PortfolioState) (f : Fill) : PortfolioState :=
  match f.side with
  | .buy =>
      { cash := pf.cash - (f.fillPrice * f.requestedSize + f.commission)
        positions := setPos pf.positions f.symbol
          (getPos pf.positions f.symbol + f.requestedSize) }
  | .sell =>
      { cash := pf.cash + (f.fillPrice * f.requestedSize - f.commission)
        positions := setPos pf.positions f.symbol
          (getPos pf.positions f.symbol - f.requestedSize) }

/-- Signed position change effected by an order/fill: positive for a buy,
negative for a sell. -/
def sideDelta (side : Side) (size : ℚ) : ℚ :=
  match side with
  | .buy => size
  | .sell => -size

/-- Cash change effected by a fill: a buy pays `price × size + commission`,
a sell receives `price × size − commission`. -/
def cashDelta (side : Side) (price size commission : ℚ) : ℚ :=
  match side with
  | .buy => -(price * size + commission)
  | .sell => price * size - commission

theorem applyFill_cash (pf : PortfolioState) (f : Fill) :
    (applyFill pf f).cash
      = pf.cash + cashDelta f.side f.fillPrice f.requestedSize f.commission := by
  cases hs : f.side <;> simp [applyFill, cashDelta, hs] <;> ring

theorem applyFill_getPos_self (pf : PortfolioState) (f : Fill) :
    getPos (applyFill pf f).positions f.symbol
      = getPos pf.positions f.symbol + sideDelta f.side f.requestedSize := by
  cases hs : f.side <;>
    simp [applyFill, sideDelta, hs, getPos_setPos_self] <;> ring

theorem applyFill_getPos_ne (pf : PortfolioState) (f : Fill) (s : Symbol)
    (h : s ≠ f.symbol) :
    getPos (applyFill pf f).positions s = getPos pf.positions s := by
  cases hs : f.side <;> simp [applyFill, hs, getPos_setPos_ne _ _ _ _ h]

/-- C3: the Portfolio Ledger's fill accounting.  On a buy, cash decreases
by `fill_price × size + commission` and the filled symbol's position
increases by the size; on a sell, cash increases by
`fill_price × size − commission` and the position decreases by the size.
`applyFill` is a total function — no fill is ever rejected for
insufficient cash or position — and, as witnessed by the final conjunct,
positions can go negative (shorts are permitted). -/
theorem ledger_fill_accounting :
    (∀ (pf : PortfolioState) (f : Fill),
      (applyFill pf f).cash
        = (match f.side with
            | .buy => pf.cash - (f.fillPrice * f.requestedSize + f.commission)
            | .sell => pf.cash + (f.fillPrice * f.requestedSize - f.commission))
      ∧ getPos (applyFill pf f).positions f.symbol
        = (match f.side with
            | .buy => getPos pf.positions f.symbol + f.requestedSize
            | .sell => getPos pf.positions f.symbol - f.requestedSize))
    ∧ (∃ (pf : PortfolioState) (f : Fill),
        getPos (applyFill pf f).positions f.symbol < 0) := by
  constructor
  · intro pf f
    constructor
    · cases hs : f.side <;> simp [applyFill, hs]
    · cases hs : f.side <;> simp [applyFill, hs, getPos_setPos_self] <;> ring
  · refine ⟨⟨0, []⟩, ⟨"BTC", Side.sell, 1, 100, 0, 0, true⟩, ?_⟩
    rw [applyFill_getPos_self]
    simp [getPos, sideDelta]

/-- C4: the Cost Model under the linear slippage model.  The fill price
equals the reference price adjusted by
`± reference_price × slippage_bps / 10000`, the sign matching the side
(a buy fills at or above the reference, a sell at or below it), and the
commission equals `fill_price × size × commission_rate`, which is
non-negative for either side. -/
theorem costModel_linear (ord : Order) (refPrice commissionRate slippageBps : ℚ)
    (t : Timestamp)
    (href : 0 ≤ refPrice) (hbps0 : 0 ≤ slippageBps) (hbps1 : slippageBps ≤ 10000)
    (hsize : 0 ≤ ord.size) (hrate : 0 ≤ commissionRate) :
    (applyCost ord refPrice commissionRate slippageBps t).fillPrice
      = (match ord.side with
          | .buy => refPrice + refPrice * slippageBps / 10000
          | .sell => refPrice - refPrice * slippageBps / 10000)
    ∧ (ord.side = Side.buy →
        refPrice ≤ (applyCost ord refPrice commissionRate slippageBps t).fillPrice)
    ∧ (ord.side = Side.sell →
        (applyCost ord refPrice commissionRate slippageBps t).fillPrice ≤ refPrice)
    ∧ (applyCost ord refPrice commissionRate slippageBps t).commission
      = (applyCost ord refPrice commissionRate slippageBps t).fillPrice
          * ord.size * commissionRate
    ∧ 0 ≤ (applyCost ord refPrice commissionRate slippageBps t).commission := by
  have hfp0 : 0 ≤ slippedPrice ord.side refPrice slippageBps := by
    cases hs : ord.side <;> simp only [slippedPrice]
    · have h1 : (0:ℚ) ≤ 1 + slippageBps / 10000 := by linarith [div_nonneg hbps0 (by norm_num : (0:ℚ) ≤ 10000)]
      exact mul_nonneg href h1
    · have h1 : (0:ℚ) ≤ 1 - slippageBps / 10000 := by
        have : slippageBps / 10000 ≤ 1 := by
          rw [div_le_one (by norm_num : (0:ℚ) < 10000)]
          exact hbps1
        linarith
      exact mul_nonneg href h1
  refine ⟨?_, ?_, ?_, ?_, ?_⟩
  · cases hs : ord.side <;> simp [applyCost, slippedPrice, hs] <;> ring
  · intro hs
    simp only [applyCost, slippedPrice, hs]
    have h1 : 0 ≤ refPrice * (slippageBps / 10000) :=
      mul_nonneg href (div_nonneg hbps0 (by norm_num))
    nlinarith
  · intro hs
    simp only [applyCost, slippedPrice, hs]
    have h1 : 0 ≤ refPrice * (slippageBps / 10000) :=
      mul_nonneg href (div_nonneg hbps0 (by norm_num))
    nlinarith
  · rfl
  · exact mul_nonneg (mul_nonneg hfp0 hsize) hrate

/-- Witness for C4 at a concrete order: buy 2 units at reference price 100
with 5 bps slippage and commission rate 1/1000. -/
theorem costModel_linear_witness :
    (applyCost ⟨"BTC", Side.buy, 2⟩ 100 (1/1000) 5 7).fillPrice
      = 100 + 100 * 5 / 10000
    ∧ 0 ≤ (applyCost ⟨"BTC", Side.buy, 2⟩ 100 (1/1000) 5 7).commission := by
  have h := costModel_linear ⟨"BTC", Side.buy, 2⟩ 100 (1/1000) 5 7
    (by norm_num) (by norm_num) (by norm_num) (by norm_num) (by norm_num)
  exact ⟨h.1, h.2.2.2.2⟩

/-! ## Execution Engine (spec.md §4.1) -/

/-- First bar of the list carrying timestamp `t`, if any. -/
def barAt (bars : List Bar) (t : Timestamp) : Option Bar :=
  bars.find? (fun b => b.ts == t)

/-- Reference price for a fill: the close of symbol `s`'s bar at
timestamp `t` (spec.md §8 "the reference close"); `none` when the symbol
has no bar at `t`. -/
def refPriceAt (md : MarketData) (s : Symbol) (t : Timestamp) : Option ℚ :=
  match md.find? (fun e => e.1 == s) with
  | none => none
  | some e => (barAt e.2 t).map Bar.close

/-- Modelled from the spec: the MarketWindow handed to the strategy at
step `t` — for every symbol, the prefix of bars with timestamp ≤ `t`
(spec.md §3 "MarketWindow", §4.1 step 1). -/
def windowAt (md : MarketData) (t : Timestamp) : MarketData :=
  md.map (fun e => (e.1, e.2.filter (fun b => decide (b.ts ≤ t))))

/-- Modelled from the spec: the common timestamp grid — the timestamps of
the first symbol's series at which every symbol has a bar (spec.md §4.1
"iterate the common timestamp grid").  Bars are assumed time-ordered, as
produced by the data provider's time-indexed tables. -/
def gridTimestamps (md : MarketData) : List Timestamp :=
  match md with
  | [] => []
  | e :: _ =>
      (e.2.map Bar.ts).dedup.filter
        (fun t => md.all (fun e' => e'.2.any (fun b => b.ts == t)))

/-- Mutable state of one simulation run: portfolio, append-only trade
log, equity curve, and the (strategy-mutable) parameter mapping. -/
structure RunState where
  pf : PortfolioState
  tradeLog : List Fill
  equityCurve : List (Timestamp × ℚ)
  params : Params
deriving DecidableEq

/-- A rejected order recorded in the trade log as a failed fill
(spec.md §7 OrderRejection). -/
def rejectedFill (ord : Order) (t : Timestamp) : Fill :=
  { symbol := ord.symbol
    side := ord.side
    requestedSize := ord.size
    fillPrice := 0
    commission := 0
    ts := t
    ok := false }

/-- Modelled from the spec: submit one order to the Cost Model then the
Portfolio Ledger (spec.md §4.1 step 4).  An order whose symbol has no
bar at the current timestamp is rejected: it is recorded in the trade
log as a failed fill and leaves the portfolio untouched; the run
continues (`processOrder` is total). -/
def processOrder (md : MarketData) (t : Timestamp)
    (commissionRate slippageBps : ℚ) (st : RunState) (ord : Order) : RunState :=
  match refPriceAt md ord.symbol t with
  | none => { st with tradeLog := st.tradeLog ++ [rejectedFill ord t] }
  | some ref =>
      let f := applyCost ord ref commissionRate slippageBps t
      { st with pf := applyFill st.pf f, tradeLog := st.tradeLog ++ [f] }

/-- The offsetting order for one position entry: sell a long, buy back a
short. -/
def offsetOrders (l : List (Symbol × ℚ)) : List Order :=
  l.map (fun p => if p.2 > 0 then ⟨p.1, Side.sell, p.2⟩ else ⟨p.1, Side.buy, -p.2⟩)

/-- Modelled from the spec: orders synthesized for the `close_all`
sentinel — one offsetting order per open position (spec.md §4.1
step 3). -/
def closeAllOrders (ps : List (Symbol × ℚ)) : List Order :=
  offsetOrders (ps.filter (fun p => decide (p.2 ≠ 0)))

/-- Interpret the strategy's return value as a concrete order list
(spec.md §4.1 step 3). -/
def ordersFor (res : StrategyResult) (ps : List (Symbol × ℚ)) : List Order :=
  match res with
  | .noAction => []
  | .closeAll => closeAllOrders ps
  | .orders os => os

/-- Modelled from the spec: `equity = cash + Σ position × price`
with the prices at timestamp `t` (spec.md §3 "PortfolioState"). -/
def equityAt (md : MarketData) (t : Timestamp) (pf : PortfolioState) : ℚ :=
  pf.cash + pf.positions.foldl
    (fun acc p => acc + p.2 * ((refPriceAt md p.1 t).getD 0)) 0

/-- Modelled from the spec: one step of the Execution Engine — build the
window, invoke the strategy, execute its orders in order, record
end-of-step equity (spec.md §4.1 steps 1–5).  The parameter mapping
returned by the strategy is threaded unmodified to the next step,
rendering Python's aliased mutable `params` dict. -/
def stepFn (md : MarketData) (strat : Strategy)
    (commissionRate slippageBps : ℚ) (st : RunState) (t : Timestamp) : RunState :=
  let out := strat (windowAt md t) st.pf.positions t st.params
  let os := ordersFor out.1 st.pf.positions
  let st1 := os.foldl (processOrder md t commissionRate slippageBps)
    { st with params := out.2 }
  { st1 with equityCurve := st1.equityCurve ++ [(t, equityAt md t st1.pf)] }

/-- Fresh run state: initial capital, no positions, empty logs
(spec.md §3 lifecycle). -/
def initState (cap : ℚ) (params : Params) : RunState :=
  ⟨⟨cap, []⟩, [], [], params⟩

/-- State of the run after its first `n` steps. -/
def stateAfter (md : MarketData) (strat : Strategy)
    (commissionRate slippageBps : ℚ) (st0 : RunState) (n : ℕ) : RunState :=
  ((gridTimestamps md).take n).foldl (stepFn md strat commissionRate slippageBps) st0

/-- Modelled from the spec: the per-run results object
(spec.md §3 "ResultsReport"). -/
structure ResultsReport where
  equityCurve : List (Timestamp × ℚ)
  tradeLog : List Fill
  finalCash : ℚ
  finalPositions : List (Symbol × ℚ)
  initialCapital : ℚ
deriving DecidableEq

/-- Error taxonomy of the engine's fail-fast checks (spec.md §7). -/
inductive BacktestError where
  | configurationError
  | dataAlignmentError
deriving DecidableEq

/-- Modelled from the spec: `run_backtest` — validate the configuration
(fail fast on non-positive capital or an unknown slippage-model name,
then on an empty common grid), then fold the step function over the
common timestamp grid (spec.md §4.1, §7). -/
def run_backtest (md : MarketData) (strat : Strategy) (initialCapital : ℚ)
    (params : Params) (commission : ℚ) (slippageModel : String)
    (slippageBps : ℚ) : Except BacktestError ResultsReport :=
  if initialCapital ≤ 0 then .error .configurationError
  else if ¬ (slippageModel = "linear") then .error .configurationError
  else match gridTimestamps md with
    | [] => .error .dataAlignmentError
    | t :: ts =>
        let fin := (t :: ts).foldl (stepFn md strat commission slippageBps)
          (initState initialCapital params)
        .ok ⟨fin.equityCurve, fin.tradeLog, fin.pf.cash, fin.pf.positions,
          initialCapital⟩

/-! ## Concrete fixtures used by witnesses -/

/-- A flat bar whose four prices all equal `c`. -/
def mkBar (t : ℕ) (c : ℚ) : Bar := ⟨t, c, c, c, c, 1⟩

/-- The spec's end-to-end example series: 5 bars with closes
100, 101, 99, 102, 103 (spec.md §8). -/
def md5 : MarketData :=
  [("BTC", [mkBar 0 100, mkBar 1 101, mkBar 2 99, mkBar 3 102, mkBar 4 103])]

/-- The spec's end-to-end example strategy: buy size 1 at step 2, sell
size 1 at step 4 (spec.md §8); steps are numbered 0,1,2,3,4 so that the
buy at step 2 fills at the close 99, matching the spec's own arithmetic
`1000 − 99`. -/
def strat24 : Strategy := fun _ _ t p =>
  if t = 2 then (.orders [⟨"BTC", Side.buy, 1⟩], p)
  else if t = 4 then (.orders [⟨"BTC", Side.sell, 1⟩], p)
  else (.noAction, p)

/-- A strategy that never trades and never touches its parameters. -/
def holdStrategy : Strategy := fun _ _ _ p => (.noAction, p)

/-! ## C1: no look-ahead -/

/-- C1: no look-ahead.  At every step `t` of a run — every member of the
common timestamp grid — the MarketWindow the engine hands to the
strategy (`windowAt md t`, the window argument of `stepFn`) contains no
bar whose timestamp exceeds `t`. -/
theorem no_lookahead (md : MarketData) (t : Timestamp)
    (ht : t ∈ gridTimestamps md) (e : Symbol × List Bar)
    (he : e ∈ windowAt md t) (b : Bar) (hb : b ∈ e.2) : b.ts ≤ t := by
  rcases List.mem_map.mp he with ⟨e', _, he'⟩
  subst he'
  have := (List.mem_filter.mp hb).2
  exact of_decide_eq_true this

/-- Witness for C1 on the concrete 5-bar series at step 1. -/
theorem no_lookahead_witness : (mkBar 0 100).ts ≤ 1 :=
  no_lookahead md5 1 (by decide) ("BTC", [mkBar 0 100, mkBar 1 101]) (by decide)
    (mkBar 0 100) (by decide)

/-! ## C6: non-positive capital fails fast -/

/-- C6: for every call to `run_backtest` with `initial_capital ≤ 0` the
run returns a configuration error.  The error is produced by the
validation guard before the grid is even consulted, so no simulation
step executes and no state is created: the result carries no report at
all. -/
theorem config_error_fast (md : MarketData) (strat : Strategy)
    (initialCapital : ℚ) (params : Params) (commission : ℚ)
    (slippageModel : String) (slippageBps : ℚ)
    (h : initialCapital ≤ 0) :
    run_backtest md strat initialCapital params commission slippageModel
      slippageBps = .error .configurationError := by
  unfold run_backtest
  rw [if_pos h]

/-- Witness for C6: capital 0 on the concrete series. -/
theorem config_error_fast_witness :
    run_backtest md5 holdStrategy 0 [] 0 "linear" 0
      = .error .configurationError :=
  config_error_fast md5 holdStrategy 0 [] 0 "linear" 0 (le_refl 0)

/-! ## C7: order rejection -/

/-- C7: an order whose symbol has no bar at the current timestamp is
rejected: the portfolio (cash and positions) is unchanged by that order,
the rejection is recorded in the trade log as a failed fill carrying the
order's symbol, side and size (not silently dropped), and the run
continues — `processOrder` and `stepFn` are total, so the remaining
orders and steps still execute. -/
theorem order_rejected (md : MarketData) (t : Timestamp)
    (commissionRate slippageBps : ℚ) (st : RunState) (ord : Order)
    (h : refPriceAt md ord.symbol t = none) :
    (processOrder md t commissionRate slippageBps st ord).pf = st.pf
    ∧ (processOrder md t commissionRate slippageBps st ord).tradeLog
        = st.tradeLog ++ [rejectedFill ord t]
    ∧ (rejectedFill ord t).ok = false
    ∧ (rejectedFill ord t).symbol = ord.symbol
    ∧ (rejectedFill ord t).side = ord.side
    ∧ (rejectedFill ord t).requestedSize = ord.size := by
  unfold processOrder
  rw [h]
  exact ⟨rfl, rfl, rfl, rfl, rfl, rfl⟩

/-- Witness for C7: an order for "ETH", which has no bar in the
single-symbol concrete series. -/
theorem order_rejected_witness :
    (processOrder md5 0 0 0 (initState 1000 []) ⟨"ETH", Side.buy, 1⟩).pf
      = (initState 1000 []).pf
    ∧ (processOrder md5 0 0 0 (initState 1000 []) ⟨"ETH", Side.buy, 1⟩).tradeLog
        = (initState 1000 []).tradeLog ++ [rejectedFill ⟨"ETH", Side.buy, 1⟩ 0]
    ∧ (rejectedFill ⟨"ETH", Side.buy, 1⟩ 0).ok = false := by
  have h := order_rejected md5 0 0 0 (initState 1000 []) ⟨"ETH", Side.buy, 1⟩
    (by decide)
  exact ⟨h.1, h.2.1, h.2.2.1⟩

/-! ## C2: the end-to-end example -/

/-- C2 counterexample: on the spec's 5-bar example the claimed final
cash 1003 is wrong.  With the steps numbered so that the buy at step 2
fills at close 99 (the numbering the spec's own arithmetic `1000 − 99`
forces), the sell at step 4 fills at close 103, not 102, so the run
ends with cash 1004. -/
theorem end_to_end_example_counterexample :
    ¬ ((run_backtest md5 strat24 1000 [] 0 "linear" 0).toOption.map
        ResultsReport.finalCash = some 1003)
    ∧ (run_backtest md5 strat24 1000 [] 0 "linear" 0).toOption.map
        ResultsReport.finalCash = some 1004 := by
  constructor
  · with_unfolding_all decide
  · with_unfolding_all decide

/-- C2 amended: the same run returns final cash 1004 = 1000 − 99 + 103,
final position 0 in every symbol, and 1004 as the last value of the
equity curve. -/
theorem end_to_end_example_amended :
    (run_backtest md5 strat24 1000 [] 0 "linear" 0).toOption.map
        ResultsReport.finalCash = some 1004
    ∧ (run_backtest md5 strat24 1000 [] 0 "linear" 0).toOption.map
        (fun r => r.finalPositions.all (fun p => p.2 == 0)) = some true
    ∧ (run_backtest md5 strat24 1000 [] 0 "linear" 0).toOption.map
        (fun r => r.equityCurve.getLast?.map Prod.snd) = some (some 1004) := by
  refine ⟨?_, ?_, ?_⟩ <;> with_unfolding_all decide

/-! ## C5: close_all zeroes every position -/

theorem processOrder_params (md : MarketData) (t : Timestamp)
    (cr bps : ℚ) (st : RunState) (ord : Order) :
    (processOrder md t cr bps st ord).params = st.params := by
  unfold processOrder
  cases refPriceAt md ord.symbol t <;> rfl

theorem processOrder_positions_some (md : MarketData) (t : Timestamp)
    (cr bps : ℚ) (st : RunState) (ord : Order) (r : ℚ)
    (h : refPriceAt md ord.symbol t = some r) :
    (processOrder md t cr bps st ord).pf.positions
      = setPos st.pf.positions ord.symbol
          (getPos st.pf.positions ord.symbol + sideDelta ord.side ord.size) := by
  unfold processOrder
  rw [h]
  cases hs : ord.side <;>
    simp [applyFill, applyCost, sideDelta, hs, sub_eq_add_neg]

theorem offset_zero (md : MarketData) (t : Timestamp) (cr bps : ℚ) :
    ∀ (l : List (Symbol × ℚ)) (st : RunState),
    (l.map Prod.fst).Nodup →
    (∀ p ∈ l, p.2 ≠ 0) →
    (∀ p ∈ l, (refPriceAt md p.1 t).isSome) →
    (∀ p ∈ l, getPos st.pf.positions p.1 = p.2) →
    ∀ s, getPos ((offsetOrders l).foldl (processOrder md t cr bps) st).pf.positions s
      = if l.any (fun p => p.1 == s) then 0 else getPos st.pf.positions s := by
  intro l
  induction l with
  | nil =>
    intro st _ _ _ _ s
    simp [offsetOrders]
  | cons p l ih =>
    intro st hnd hnz hpr hgp s
    obtain ⟨r, hr⟩ := Option.isSome_iff_exists.mp (hpr p (List.mem_cons_self p l))
    have hordsym :
        (if p.2 > 0 then (⟨p.1, Side.sell, p.2⟩ : Order) else ⟨p.1, Side.buy, -p.2⟩).symbol
          = p.1 := by
      by_cases hp : p.2 > 0 <;> simp [hp]
    have hdelta :
        sideDelta (if p.2 > 0 then (⟨p.1, Side.sell, p.2⟩ : Order) else ⟨p.1, Side.buy, -p.2⟩).side
            (if p.2 > 0 then (⟨p.1, Side.sell, p.2⟩ : Order) else ⟨p.1, Side.buy, -p.2⟩).size
          = -p.2 := by
      by_cases hp : p.2 > 0 <;> simp [hp, sideDelta]
    set o : Order := if p.2 > 0 then ⟨p.1, Side.sell, p.2⟩ else ⟨p.1, Side.buy, -p.2⟩ with ho
    set st' := processOrder md t cr bps st o with hst'
    have hpos' : st'.pf.positions = setPos st.pf.positions p.1 0 := by
      rw [hst', processOrder_positions_some md t cr bps st o r (by rw [hordsym]; exact hr)]
    -- after the head order, p.1's position is zero; use hgp to compute the value
      rw [hordsym, hdelta, hgp p (List.mem_cons_self p l)]
      simp
    rw [List.map_cons] at hnd
    have hnd' := List.nodup_cons.mp hnd
    have hgp' : ∀ q ∈ l, getPos st'.pf.positions q.1 = q.2 := by
      intro q hq
      have hne : q.1 ≠ p.1 := by
        intro hc
        exact hnd'.1 (hc ▸ List.mem_map_of_mem Prod.fst hq)
      rw [hpos', getPos_setPos_ne _ _ _ _ hne]
      exact hgp q (List.mem_cons.mpr (Or.inr hq))
    have hfold :
        (offsetOrders (p :: l)).foldl (processOrder md t cr bps) st
          = (offsetOrders l).foldl (processOrder md t cr bps) st' := by
      simp [offsetOrders, hst', ho]
    rw [hfold]
    rw [ih st' hnd'.2 (fun q hq => hnz q (List.mem_cons.mpr (Or.inr hq)))
      (fun q hq => hpr q (List.mem_cons.mpr (Or.inr hq))) hgp' s]
    by_cases hl : l.any (fun q => q.1 == s) = true
    · simp [hl]
    · have hl' : l.any (fun q => q.1 == s) = false := Bool.eq_false_iff.mpr hl
      by_cases hps : p.1 = s
      · have : (p :: l).any (fun q => q.1 == s) = true := by
          simp [List.any_cons, hps]
        rw [this, if_pos rfl, hl', if_neg (by simp), hpos', hps, getPos_setPos_self]
      · have : (p :: l).any (fun q => q.1 == s) = false := by
          simp [List.any_cons, hps, hl']
        rw [this, hl']
        simp only [if_neg (by simp : ¬ (false = true))]
        rw [hpos', getPos_setPos_ne _ _ _ _ (fun hc => hps hc.symm)]

/-- Run-state invariant: position keys are duplicate-free and every
position's symbol is present in the market data. -/
def PosInv (md : MarketData) (st : RunState) : Prop :=
  (st.pf.positions.map Prod.fst).Nodup
  ∧ ∀ p ∈ st.pf.positions, (md.find? (fun e => e.1 == p.1)).isSome

theorem nodup_keys_setPos (ps : List (Symbol × ℚ)) (s : Symbol) (q : ℚ)
    (h : (ps.map Prod.fst).Nodup) : ((setPos ps s q).map Prod.fst).Nodup := by
  unfold setPos
  rw [List.map_cons]
  refine List.nodup_cons.mpr ⟨?_, ?_⟩
  · intro hmem
    rcases List.mem_map.mp hmem with ⟨p, hp, hps⟩
    have hcond := (List.mem_filter.mp hp).2
    have hne : ¬ (p.1 = s) := by simpa using hcond
    exact hne (by simpa using hps)
  · exact List.Nodup.sublist ((List.filter_sublist ps).map Prod.fst) h

theorem refPriceAt_some_find (md : MarketData) (s : Symbol) (t : Timestamp)
    (r : ℚ) (h : refPriceAt md s t = some r) :
    (md.find? (fun e => e.1 == s)).isSome := by
  unfold refPriceAt at h
  cases hf : md.find? (fun e => e.1 == s) with
  | none => rw [hf] at h; cases h
  | some e => simp

theorem posInv_processOrder (md : MarketData) (t : Timestamp) (cr bps : ℚ)
    (st : RunState) (ord : Order) (h : PosInv md st) :
    PosInv md (processOrder md t cr bps st ord) := by
  cases hr : refPriceAt md ord.symbol t with
  | none =>
    have heq : processOrder md t cr bps st ord
        = { st with tradeLog := st.tradeLog ++ [rejectedFill ord t] } := by
      unfold processOrder
      rw [hr]
    rw [heq]
    exact h
  | some r =>
    have hpos := processOrder_positions_some md t cr bps st ord r hr
    constructor
    · rw [show (processOrder md t cr bps st ord).pf.positions = _ from hpos]
      exact nodup_keys_setPos _ _ _ h.1
    · intro p hp
      rw [show (processOrder md t cr bps st ord).pf.positions = _ from hpos] at hp
      unfold setPos at hp
      rcases List.mem_cons.mp hp with hph | hpt
      · rw [hph]
        exact refPriceAt_some_find md ord.symbol t r hr
      · exact h.2 p ((List.mem_filter.mp hpt).1)

theorem posInv_foldl (md : MarketData) (t : Timestamp) (cr bps : ℚ)
    (orders : List Order) : ∀ st : RunState, PosInv md st →
    PosInv md (orders.foldl (processOrder md t cr bps) st) := by
  induction orders with
  | nil => intro st h; exact h
  | cons o os ih =>
    intro st h
    rw [List.foldl_cons]
    exact ih _ (posInv_processOrder md t cr bps st o h)

theorem posInv_stepFn (md : MarketData) (strat : Strategy) (cr bps : ℚ)
    (st : RunState) (t : Timestamp) (h : PosInv md st) :
    PosInv md (stepFn md strat cr bps st t) := by
  unfold stepFn
  exact posInv_foldl md t cr bps _ _ h

theorem posInv_foldlSteps (md : MarketData) (strat : Strategy) (cr bps : ℚ) :
    ∀ (ts : List Timestamp) (st : RunState), PosInv md st →
    PosInv md (ts.foldl (stepFn md strat cr bps) st) := by
  intro ts
  induction ts with
  | nil => intro st h; exact h
  | cons t ts ih =>
    intro st h
    rw [List.foldl_cons]
    exact ih _ (posInv_stepFn md strat cr bps st t h)

theorem posInv_stateAfter (md : MarketData) (strat : Strategy) (cr bps : ℚ)
    (cap : ℚ) (params0 : Params) (n : ℕ) :
    PosInv md (stateAfter md strat cr bps (initState cap params0) n) := by
  unfold stateAfter
  refine posInv_foldlSteps md strat cr bps _ _ ⟨?_, ?_⟩
  · simp [initState]
  · intro p hp
    simp [initState] at hp

theorem refPriceAt_isSome_of_mem_grid (md : MarketData) (s : Symbol)
    (t : Timestamp) (ht : t ∈ gridTimestamps md)
    (hf : (md.find? (fun e => e.1 == s)).isSome) :
    (refPriceAt md s t).isSome := by
  obtain ⟨e, he⟩ := Option.isSome_iff_exists.mp hf
  have hmem : e ∈ md := List.mem_of_find?_eq_some he
  have hall : md.all (fun e' => e'.2.any (fun b => b.ts == t)) = true := by
    cases md with
    | nil => simp [gridTimestamps] at ht
    | cons e0 rest =>
      unfold gridTimestamps at ht
      exact (List.mem_filter.mp ht).2
  have hany := List.all_eq_true.mp hall e hmem
  obtain ⟨b, hb, hbt⟩ := List.any_eq_true.mp hany
  unfold refPriceAt barAt
  rw [he]
  have hfind : (e.2.find? (fun b => b.ts == t)).isSome :=
    List.find?_isSome.mpr ⟨b, hb, hbt⟩
  obtain ⟨b', hb'⟩ := Option.isSome_iff_exists.mp hfind
  show (Option.map Bar.close (e.2.find? (fun b => b.ts == t))).isSome = true
  rw [hb']
  rfl

theorem getPos_zero_of_filter_any_false (ps : List (Symbol × ℚ)) (s : Symbol)
    (h : (ps.filter (fun p => decide (p.2 ≠ 0))).any (fun p => p.1 == s) = false) :
    getPos ps s = 0 := by
  unfold getPos
  cases hf : ps.find? (fun p => p.1 == s) with
  | none => rfl
  | some p =>
    have hp : p ∈ ps := List.mem_of_find?_eq_some hf
    have hps : (p.1 == s) = true := by
      have hx := List.find?_some hf
      simpa using hx
    by_cases hz : p.2 = 0
    · exact hz
    · exfalso
      have hmemf : p ∈ ps.filter (fun p => decide (p.2 ≠ 0)) :=
        List.mem_filter.mpr ⟨hp, by simpa using hz⟩
      have htrue : (ps.filter (fun p => decide (p.2 ≠ 0))).any
          (fun p => p.1 == s) = true :=
        List.any_eq_true.mpr ⟨p, hmemf, hps⟩
      rw [htrue] at h
      cases h

theorem stepFn_closeAll_zero (md : MarketData) (strat : Strategy) (cr bps : ℚ)
    (st : RunState) (t : Timestamp) (ht : t ∈ gridTimestamps md)
    (hinv : PosInv md st)
    (hres : (strat (windowAt md t) st.pf.positions t st.params).1
      = StrategyResult.closeAll) :
    ∀ s, getPos (stepFn md strat cr bps st t).pf.positions s = 0 := by
  intro s
  have hnd : ((st.pf.positions.filter (fun p => decide (p.2 ≠ 0))).map
      Prod.fst).Nodup :=
    List.Nodup.sublist ((List.filter_sublist st.pf.positions).map Prod.fst) hinv.1
  have hnz : ∀ p ∈ st.pf.positions.filter (fun p => decide (p.2 ≠ 0)), p.2 ≠ 0 := by
    intro p hp
    have := (List.mem_filter.mp hp).2
    simpa using this
  have hpr : ∀ p ∈ st.pf.positions.filter (fun p => decide (p.2 ≠ 0)),
      (refPriceAt md p.1 t).isSome := by
    intro p hp
    exact refPriceAt_isSome_of_mem_grid md p.1 t ht
      (hinv.2 p (List.mem_filter.mp hp).1)
  simp only [stepFn, hres, ordersFor, closeAllOrders]
  have hgp : ∀ p ∈ st.pf.positions.filter (fun p => decide (p.2 ≠ 0)),
      getPos ({ st with params :=
        (strat (windowAt md t) st.pf.positions t st.params).2 } :
          RunState).pf.positions p.1 = p.2 := by
    intro p hp
    exact getPos_of_mem_nodup st.pf.positions p hinv.1 (List.mem_filter.mp hp).1
  rw [offset_zero md t cr bps _ _ hnd hnz hpr hgp s]
  cases hany : (st.pf.positions.filter (fun p => decide (p.2 ≠ 0))).any
      (fun p => p.1 == s) with
  | true => rw [if_pos rfl]
  | false =>
    rw [if_neg (by simp)]
    exact getPos_zero_of_filter_any_false st.pf.positions s hany

theorem stateAfter_succ (md : MarketData) (strat : Strategy) (cr bps : ℚ)
    (st0 : RunState) (n : ℕ) (hn : n < (gridTimestamps md).length) :
    stateAfter md strat cr bps st0 (n + 1)
      = stepFn md strat cr bps (stateAfter md strat cr bps st0 n)
          ((gridTimestamps md).get ⟨n, hn⟩) := by
  unfold stateAfter
  rw [List.take_succ]
  rw [List.foldl_append]
  congr 1
  rw [List.getElem?_eq_getElem hn]
  simp [List.get_eq_getElem]

/-- C5: close_all correctness.  In any run started from a fresh state, if
the strategy returns the `close_all` sentinel at step `n`, the engine
synthesizes offsetting orders so that after that step every symbol's
position is exactly 0. -/
theorem close_all_zeroes (md : MarketData) (strat : Strategy) (cr bps : ℚ)
    (cap : ℚ) (params0 : Params) (n : ℕ)
    (hn : n < (gridTimestamps md).length)
    (hres : (strat (windowAt md ((gridTimestamps md).get ⟨n, hn⟩))
        (stateAfter md strat cr bps (initState cap params0) n).pf.positions
        ((gridTimestamps md).get ⟨n, hn⟩)
        (stateAfter md strat cr bps (initState cap params0) n).params).1
      = StrategyResult.closeAll) :
    ∀ s, getPos
      (stateAfter md strat cr bps (initState cap params0) (n + 1)).pf.positions
      s = 0 := by
  intro s
  rw [stateAfter_succ md strat cr bps (initState cap params0) n hn]
  exact stepFn_closeAll_zero md strat cr bps _ _
    (List.get_mem (gridTimestamps md) n hn)
    (posInv_stateAfter md strat cr bps cap params0 n) hres s

/-- Two-bar concrete series for the close_all witness. -/
def md2 : MarketData := [("BTC", [mkBar 0 100, mkBar 1 101])]

/-- Witness strategy: buy 1 unit at step 0, close everything at step 1. -/
def buyThenClose : Strategy := fun _ _ t p =>
  if t = 0 then (.orders [⟨"BTC", Side.buy, 1⟩], p)
  else if t = 1 then (.closeAll, p)
  else (.noAction, p)

/-- Witness for C5: after the close_all at step 1 the "BTC" position is
exactly 0. -/
theorem close_all_zeroes_witness :
    getPos (stateAfter md2 buyThenClose 0 0 (initState 1000 []) 2).pf.positions
      "BTC" = 0 :=
  close_all_zeroes md2 buyThenClose 0 0 1000 [] 1 (by decide)
    (by with_unfolding_all decide) "BTC"

/-! ## Metrics Calculator (spec.md §4.4, minimal slice)

Only the metrics the optimizer claims exercise are modelled; ratio
metrics needing square roots (Sharpe) are outside ℚ and no claim relies
on their values. -/

/-- Last value of the equity curve, defaulting to the initial capital for
an empty curve. -/
def lastEquity (r : ResultsReport) : ℚ :=
  ((r.equityCurve.getLast?).map Prod.snd).getD r.initialCapital

/-- Modelled from the spec: the summary mapping of metric name → value
(spec.md §4.4), restricted to the ℚ-valued metrics used here. -/
def summarize (r : ResultsReport) : List (String × ℚ) :=
  [("final_equity", lastEquity r),
   ("total_return", lastEquity r - r.initialCapital),
   ("total_commission", r.tradeLog.foldl (fun a f => a + f.commission) 0)]

/-- Look up a metric by name (0 for an unknown name). -/
def metricOf (r : ResultsReport) (name : String) : ℚ :=
  (((summarize r).find? (fun e => e.1 == name)).map Prod.snd).getD 0

/-! ## Optimizer (spec.md §4.5) -/

/-- Modelled from the spec: a parameter's declared domain — a continuous
`(low, high)` range, an integer `(low, high)` range, or an explicit
discrete set (spec.md §4.5). -/
inductive ParamKind where
  | contRange (lo hi : ℚ)
  | intRange (lo hi : ℤ)
  | discreteSet (vals : List ℚ)
deriving DecidableEq

/-- `param_space`: parameter name → declared domain (spec.md §4.5). -/
abbrev ParamSpace := List (String × ParamKind)

/-- Well-formedness of one domain (non-empty range/set); a malformed
`param_space` is a configuration error (spec.md §7). -/
def wfKind : ParamKind → Bool
  | .contRange lo hi => decide (lo ≤ hi)
  | .intRange lo hi => decide (lo ≤ hi)
  | .discreteSet vals => decide (vals ≠ [])

/-- Membership of a value in a declared domain: inside `[low, high]` for a
continuous range, an integer inside `[low, high]` for an integer range,
a member of the set for a discrete set. -/
def inDomain : ParamKind → ℚ → Prop
  | .contRange lo hi, v => lo ≤ v ∧ v ≤ hi
  | .intRange lo hi, v => (lo : ℚ) ≤ v ∧ v ≤ (hi : ℚ) ∧ ∃ z : ℤ, v = (z : ℚ)
  | .discreteSet vals, v => v ∈ vals

/-- Deterministic pseudo-random source for candidate generation (a linear
congruential step).  The precise acquisition algorithm is an
implementation choice per spec.md §4.5; the model uses seeded
quasi-random exploration, which keeps trial `i` independent of the total
trial count — the property the monotonic-improvement contract needs. -/
def lcg (n : ℕ) : ℕ := (1103515245 * n + 12345) % 2147483648

/-- A deterministic sample in `[0, 1]`. -/
def unitQ (n : ℕ) : ℚ := ((lcg n % 1024 : ℕ) : ℚ) / 1024

/-- Sample one value inside a declared domain. -/
def proposeValue (seed : ℕ) : ParamKind → ℚ
  | .contRange lo hi => lo + (hi - lo) * unitQ seed
  | .intRange lo hi => ((lo + (lcg seed % (hi - lo + 1).toNat : ℕ) : ℤ) : ℚ)
  | .discreteSet vals => vals.getD (lcg seed % vals.length) 0

/-- Modelled from the spec: the candidate proposed for trial `i` — one
in-domain value per declared parameter (spec.md §4.5). -/
def propose (i : ℕ) (space : ParamSpace) : Params :=
  space.enum.map (fun e => (e.2.1, proposeValue (37 * i + e.1) e.2.2))

/-- Trial history after `n` sequential trials: each entry is a proposed
candidate with its achieved metric value.  Trial `i` depends only on the
trials before it, so histories for different `n_trials` share a common
prefix. -/
def trialHistory (space : ParamSpace) (objective : Params → ℚ) : ℕ → List (Params × ℚ)
  | 0 => []
  | n + 1 =>
      trialHistory space objective n
        ++ [(propose n space, objective (propose n space))]

/-- One selection step: keep the incumbent unless the new trial is
strictly better (ties broken by earliest trial index, spec.md §4.5). -/
def bestStep (acc : Option (Params × ℚ)) (tr : Params × ℚ) : Option (Params × ℚ) :=
  match acc with
  | none => some tr
  | some b => if b.2 < tr.2 then some tr else some b

/-- Select the best-metric trial of a history. -/
def selectBest (trials : List (Params × ℚ)) : Option (Params × ℚ) :=
  trials.foldl bestStep none

/-- Python-dict merge `{**fixed, **candidate}`: the candidate's entries
shadow the fixed ones under first-match lookup. -/
def mergeParams (fixed cand : Params) : Params := cand ++ fixed

/-- Sentinel worst-possible metric value recorded for a failing trial
(spec.md §7 TrialError). -/
def worstValue : ℚ := -(10 ^ 9)

/-- Modelled from the spec: the objective of one trial — one independent
engine run from a fresh state on the merged parameters, scored by the
chosen metric; a failing run scores the worst-possible sentinel
(spec.md §4.5, §7). -/
def objectiveOf (md : MarketData) (strat : Strategy) (metric : String)
    (initialCapital commission : ℚ) (fixedParams : Params) (p : Params) : ℚ :=
  match run_backtest md strat initialCapital (mergeParams fixedParams p)
      commission "linear" 0 with
  | .ok r => metricOf r metric
  | .error _ => worstValue

/-- Modelled from the spec: `optimize_strategy` — validate the parameter
space (malformed spaces are configuration errors, spec.md §7), run
`n_trials` sequential independent trials, and return the best candidate
with its metric value (`best_params`, `best_value`); `n_trials = 0`
leaves nothing to select and is likewise rejected. -/
def optimize_strategy (md : MarketData) (strat : Strategy) (space : ParamSpace)
    (metric : String) (nTrials : ℕ) (initialCapital commission : ℚ)
    (fixedParams : Params) : Except BacktestError (Params × ℚ) :=
  if ¬ (space.all (fun e => wfKind e.2)) then .error .configurationError
  else
    match selectBest (trialHistory space
        (objectiveOf md strat metric initialCapital commission fixedParams)
        nTrials) with
    | none => .error .configurationError
    | some best => .ok best

theorem trialHistory_length (space : ParamSpace) (obj : Params → ℚ) (n : ℕ) :
    (trialHistory space obj n).length = n := by
  induction n with
  | zero => rfl
  | succ n ih => simp [trialHistory, ih]

theorem trialHistory_extends (space : ParamSpace) (obj : Params → ℚ)
    (n m : ℕ) (h : n ≤ m) :
    ∃ rest, trialHistory space obj m = trialHistory space obj n ++ rest := by
  induction m with
  | zero =>
    have : n = 0 := Nat.le_zero.mp h
    exact ⟨[], by simp [this]⟩
  | succ m ih =>
    rcases Nat.lt_or_ge n (m + 1) with hlt | hge
    · obtain ⟨rest, hr⟩ := ih (Nat.lt_succ_iff.mp hlt)
      exact ⟨rest ++ [(propose m space, obj (propose m space))],
        by simp [trialHistory, hr]⟩
    · have : n = m + 1 := Nat.le_antisymm h hge
      exact ⟨[], by simp [this]⟩

theorem foldl_bestStep_some (l : List (Params × ℚ)) :
    ∀ b : Params × ℚ, ∃ c, l.foldl bestStep (some b) = some c ∧ b.2 ≤ c.2 := by
  induction l with
  | nil => intro b; exact ⟨b, rfl, le_refl _⟩
  | cons a l ih =>
    intro b
    rw [List.foldl_cons]
    by_cases hab : b.2 < a.2
    · obtain ⟨c, hc, hac⟩ := ih a
      exact ⟨c, by simpa [bestStep, hab] using hc, le_trans (le_of_lt hab) hac⟩
    · obtain ⟨c, hc, hbc⟩ := ih b
      exact ⟨c, by simpa [bestStep, hab] using hc, hbc⟩

theorem selectBest_cons (a : Params × ℚ) (l : List (Params × ℚ)) :
    ∃ c, selectBest (a :: l) = some c ∧ a.2 ≤ c.2 := by
  unfold selectBest
  rw [List.foldl_cons]
  exact foldl_bestStep_some l a

theorem selectBest_append_mono (l r : List (Params × ℚ)) (b : Params × ℚ)
    (h : selectBest l = some b) :
    ∃ c, selectBest (l ++ r) = some c ∧ b.2 ≤ c.2 := by
  unfold selectBest at h ⊢
  rw [List.foldl_append, h]
  exact foldl_bestStep_some r b

/-- C8: optimizer monotonic improvement.  Holding market data, strategy,
parameter space, metric, capital, costs, fixed parameters and the
(deterministic, seeded) candidate source fixed, the `best_value`
returned by `optimize_strategy` is non-decreasing as `n_trials`
increases. -/
theorem optimizer_monotonic (md : MarketData) (strat : Strategy)
    (space : ParamSpace) (metric : String) (cap comm : ℚ) (fixed : Params)
    (n m : ℕ) (hwf : space.all (fun e => wfKind e.2) = true)
    (hn : 1 ≤ n) (hnm : n ≤ m) :
    ∃ p v q w,
      optimize_strategy md strat space metric n cap comm fixed = .ok (p, v)
      ∧ optimize_strategy md strat space metric m cap comm fixed = .ok (q, w)
      ∧ v ≤ w := by
  have hne : trialHistory space
      (objectiveOf md strat metric cap comm fixed) n ≠ [] := by
    intro hc
    have := trialHistory_length space
      (objectiveOf md strat metric cap comm fixed) n
    rw [hc] at this
    simp at this
    omega
  obtain ⟨a, l, hal⟩ := List.exists_cons_of_ne_nil hne
  obtain ⟨b, hb, _⟩ := selectBest_cons a l
  have hseln : selectBest (trialHistory space
      (objectiveOf md strat metric cap comm fixed) n) = some b := by
    rw [hal]; exact hb
  obtain ⟨rest, hrest⟩ := trialHistory_extends space
    (objectiveOf md strat metric cap comm fixed) n m hnm
  obtain ⟨c, hc, hbc⟩ := selectBest_append_mono _ rest b hseln
  refine ⟨b.1, b.2, c.1, c.2, ?_, ?_, hbc⟩
  · unfold optimize_strategy
    rw [if_neg (by simp [hwf])]
    rw [hseln]
  · unfold optimize_strategy
    rw [if_neg (by simp [hwf])]
    rw [hrest, hc]

/-- Witness for C8: a 1-parameter space on the two-bar series, comparing
1 trial against 2 trials. -/
theorem optimizer_monotonic_witness :
    ∃ p v q w,
      optimize_strategy md2 holdStrategy [("threshold", ParamKind.contRange 0 1)]
        "total_return" 1 1000 0 [] = .ok (p, v)
      ∧ optimize_strategy md2 holdStrategy [("threshold", ParamKind.contRange 0 1)]
        "total_return" 2 1000 0 [] = .ok (q, w)
      ∧ v ≤ w :=
  optimizer_monotonic md2 holdStrategy [("threshold", ParamKind.contRange 0 1)]
    "total_return" 1000 0 [] 1 2 (by with_unfolding_all decide)
    (le_refl 1) (by omega)

/-! ## C9: proposals stay inside the declared domains -/

theorem unitQ_bounds (n : ℕ) : 0 ≤ unitQ n ∧ unitQ n ≤ 1 := by
  unfold unitQ
  constructor
  · positivity
  · rw [div_le_one (by norm_num : (0:ℚ) < 1024)]
    have h : lcg n % 1024 < 1024 := Nat.mod_lt _ (by norm_num)
    exact_mod_cast Nat.le_of_lt h

theorem proposeValue_inDomain (seed : ℕ) (k : ParamKind)
    (h : wfKind k = true) : inDomain k (proposeValue seed k) := by
  cases k with
  | contRange lo hi =>
    have hlh : lo ≤ hi := by simpa [wfKind] using h
    obtain ⟨hu0, hu1⟩ := unitQ_bounds seed
    constructor
    · simp only [proposeValue]
      nlinarith
    · simp only [proposeValue]
      nlinarith
  | intRange lo hi =>
    have hlh : lo ≤ hi := by simpa [wfKind] using h
    have htn : 0 < (hi - lo + 1).toNat := by omega
    have hK : lcg seed % (hi - lo + 1).toNat < (hi - lo + 1).toNat :=
      Nat.mod_lt _ htn
    have hK' : ((lcg seed % (hi - lo + 1).toNat : ℕ) : ℤ) < hi - lo + 1 := by
      omega
    refine ⟨?_, ?_, ⟨lo + (lcg seed % (hi - lo + 1).toNat : ℕ), rfl⟩⟩
    · simp only [proposeValue]
      have : lo ≤ lo + ((lcg seed % (hi - lo + 1).toNat : ℕ) : ℤ) := by omega
      exact_mod_cast this
    · simp only [proposeValue]
      have : lo + ((lcg seed % (hi - lo + 1).toNat : ℕ) : ℤ) ≤ hi := by omega
      exact_mod_cast this
  | discreteSet vals =>
    have hne : vals ≠ [] := by simpa [wfKind] using h
    have hlen : 0 < vals.length := List.length_pos.mpr hne
    have hidx : lcg seed % vals.length < vals.length := Nat.mod_lt _ hlen
    simp only [inDomain, proposeValue]
    rw [List.getD_eq_getElem _ _ hidx]
    exact List.getElem_mem _

theorem snd_mem_of_mem_enumFrom {α : Type} :
    ∀ (l : List α) (n : ℕ) (p : ℕ × α), p ∈ l.enumFrom n → p.2 ∈ l := by
  intro l
  induction l with
  | nil => intro n p hp; cases hp
  | cons a l ih =>
    intro n p hp
    rcases List.mem_cons.mp hp with h | h
    · rw [h]
      exact List.mem_cons_self a l
    · exact List.mem_cons.mpr (Or.inr (ih (n + 1) p h))

theorem propose_entry_inDomain (space : ParamSpace) (i : ℕ)
    (hwf : space.all (fun e => wfKind e.2) = true) :
    ∀ e ∈ propose i space, ∃ k, (e.1, k) ∈ space ∧ inDomain k e.2 := by
  intro e he
  unfold propose at he
  rcases List.mem_map.mp he with ⟨je, hmem, heq⟩
  have hsp : je.2 ∈ space := snd_mem_of_mem_enumFrom space 0 je hmem
  refine ⟨je.2.2, ?_, ?_⟩
  · rw [← heq]
    simpa using hsp
  · rw [← heq]
    exact proposeValue_inDomain (37 * i + je.1) je.2.2
      (List.all_eq_true.mp hwf je.2 hsp)

theorem foldl_bestStep_mem :
    ∀ (l : List (Params × ℚ)) (acc : Option (Params × ℚ)) (b : Params × ℚ),
    l.foldl bestStep acc = some b → acc = some b ∨ b ∈ l := by
  intro l
  induction l with
  | nil => intro acc b h; exact Or.inl h
  | cons a l ih =>
    intro acc b h
    rw [List.foldl_cons] at h
    rcases ih (bestStep acc a) b h with hh | hh
    · cases acc with
      | none =>
        simp only [bestStep] at hh
        exact Or.inr (List.mem_cons.mpr (Or.inl (Option.some.inj hh).symm))
      | some c =>
        simp only [bestStep] at hh
        by_cases hca : c.2 < a.2
        · rw [if_pos hca] at hh
          exact Or.inr (List.mem_cons.mpr (Or.inl (Option.some.inj hh).symm))
        · rw [if_neg hca] at hh
          exact Or.inl hh
    · exact Or.inr (List.mem_cons.mpr (Or.inr hh))

theorem selectBest_mem (l : List (Params × ℚ)) (b : Params × ℚ)
    (h : selectBest l = some b) : b ∈ l := by
  rcases foldl_bestStep_mem l none b h with hh | hh
  · cases hh
  · exact hh

theorem trialHistory_entry_proposed (space : ParamSpace) (obj : Params → ℚ) :
    ∀ (n : ℕ), ∀ tr ∈ trialHistory space obj n, ∃ i, tr.1 = propose i space := by
  intro n
  induction n with
  | zero => intro tr htr; cases htr
  | succ n ih =>
    intro tr htr
    unfold trialHistory at htr
    rcases List.mem_append.mp htr with h | h
    · exact ih tr h
    · refine ⟨n, ?_⟩
      have : tr = (propose n space, obj (propose n space)) := by simpa using h
      rw [this]

/-- C9: every candidate the optimizer proposes, and hence every entry of
the returned `best_params`, lies within the declared domain of its
parameter in `param_space`: inside `[low, high]` for a continuous range,
an integer inside `[low, high]` for an integer range, and a member of
the set for a discrete set. -/
theorem optimizer_in_domain :
    (∀ (space : ParamSpace) (i : ℕ),
      space.all (fun e => wfKind e.2) = true →
      ∀ e ∈ propose i space, ∃ k, (e.1, k) ∈ space ∧ inDomain k e.2)
    ∧ (∀ (md : MarketData) (strat : Strategy) (space : ParamSpace)
        (metric : String) (n : ℕ) (cap comm : ℚ) (fixed p : Params) (v : ℚ),
      space.all (fun e => wfKind e.2) = true →
      optimize_strategy md strat space metric n cap comm fixed = .ok (p, v) →
      ∀ e ∈ p, ∃ k, (e.1, k) ∈ space ∧ inDomain k e.2) := by
  constructor
  · exact fun space i hwf => propose_entry_inDomain space i hwf
  · intro md strat space metric n cap comm fixed p v hwf hok
    unfold optimize_strategy at hok
    rw [if_neg (by simp [hwf])] at hok
    cases hsel : selectBest (trialHistory space
        (objectiveOf md strat metric cap comm fixed) n) with
    | none => rw [hsel] at hok; cases hok
    | some best =>
      rw [hsel] at hok
      have hbv : best = (p, v) := Except.ok.inj hok
      have hmem := selectBest_mem _ _ hsel
      obtain ⟨i, hi⟩ := trialHistory_entry_proposed space _ n best hmem
      intro e he
      refine propose_entry_inDomain space i hwf e ?_
      rw [← hi, hbv]
      exact he

theorem except_ok_of_toOption {ε α : Type} (e : Except ε α) (x : α)
    (h : e.toOption = some x) : e = .ok x := by
  cases e with
  | error err => simp [Except.toOption] at h
  | ok y =>
    simp only [Except.toOption] at h
    rw [Option.some.inj h]

/-- Witness for C9: the spec's example — `param_space =
{'threshold': (0.0, 1.0)}`, one trial — yields a `best_params` whose
`threshold` entry (the concrete value 57/1024) lies inside the declared
continuous range `[0, 1]`. -/
theorem optimizer_in_domain_witness :
    ∃ k, ("threshold", k) ∈ ([("threshold", ParamKind.contRange 0 1)] : ParamSpace)
      ∧ inDomain k ((57 : ℚ) / 1024) := by
  have h := optimizer_in_domain.2 md2 holdStrategy
    [("threshold", ParamKind.contRange 0 1)] "total_return" 1 1000 0 []
    [("threshold", (57 : ℚ) / 1024)] 0
    (by with_unfolding_all decide)
    (except_ok_of_toOption _ _ (by with_unfolding_all decide))
    ("threshold", (57 : ℚ) / 1024) (by simp)
  exact h

/-! ## C10: the parameter mapping is threaded through the run -/

/-- Key membership in a parameter mapping. -/
def containsKey (p : Params) (k : String) : Bool := p.any (fun e => e.1 == k)

theorem foldl_processOrder_params (md : MarketData) (t : Timestamp)
    (cr bps : ℚ) :
    ∀ (orders : List Order) (st : RunState),
    (orders.foldl (processOrder md t cr bps) st).params = st.params := by
  intro orders
  induction orders with
  | nil => intro st; rfl
  | cons o os ih =>
    intro st
    rw [List.foldl_cons, ih, processOrder_params]

theorem stepFn_params (md : MarketData) (strat : Strategy) (cr bps : ℚ)
    (st : RunState) (t : Timestamp) :
    (stepFn md strat cr bps st t).params
      = (strat (windowAt md t) st.pf.positions t st.params).2 := by
  simp only [stepFn]
  rw [foldl_processOrder_params]

theorem stateAfter_stable (md : MarketData) (strat : Strategy) (cr bps : ℚ)
    (st0 : RunState) (n : ℕ) (hn : (gridTimestamps md).length ≤ n) :
    stateAfter md strat cr bps st0 (n + 1)
      = stateAfter md strat cr bps st0 n := by
  unfold stateAfter
  rw [List.take_of_length_le hn, List.take_of_length_le (le_trans hn (Nat.le_succ n))]

/-- C10: within a single run the engine threads the parameter mapping
through the strategy invocations unmodified.  First conjunct: the
mapping the strategy receives at step `n+1` is exactly the mapping it
returned (possibly mutated) at step `n` — the engine itself never alters
it.  Second conjunct: consequently, for a strategy that never deletes a
key (it only reads, adds or updates entries, as `stat_arb_strategy` does
with `params['_pairs']`), a key present after step `n` is present at
every later step of the same run. -/
theorem params_threading (md : MarketData) (strat : Strategy) (cr bps : ℚ)
    (st0 : RunState) :
    (∀ (n : ℕ) (hn : n < (gridTimestamps md).length),
      (stateAfter md strat cr bps st0 (n + 1)).params
        = (strat (windowAt md ((gridTimestamps md).get ⟨n, hn⟩))
            (stateAfter md strat cr bps st0 n).pf.positions
            ((gridTimestamps md).get ⟨n, hn⟩)
            (stateAfter md strat cr bps st0 n).params).2)
    ∧ (∀ (k : String),
      (∀ w pos t p, containsKey p k = true → containsKey (strat w pos t p).2 k = true) →
      ∀ (n m : ℕ), n ≤ m →
      containsKey (stateAfter md strat cr bps st0 n).params k = true →
      containsKey (stateAfter md strat cr bps st0 m).params k = true) := by
  constructor
  · intro n hn
    rw [stateAfter_succ md strat cr bps st0 n hn, stepFn_params]
  · intro k hpres n m hnm hk
    induction m with
    | zero =>
      have : n = 0 := Nat.le_zero.mp hnm
      rw [← this]
      exact hk
    | succ m ih =>
      rcases Nat.lt_or_ge n (m + 1) with hlt | hge
      · have hm := ih (Nat.lt_succ_iff.mp hlt)
        rcases Nat.lt_or_ge m (gridTimestamps md).length with hml | hml
        · rw [stateAfter_succ md strat cr bps st0 m hml, stepFn_params]
          exact hpres _ _ _ _ hm
        · rw [stateAfter_stable md strat cr bps st0 m hml]
          exact hm
      · have : n = m + 1 := Nat.le_antisymm hnm hge
        rw [← this]
        exact hk

/-- Witness strategy for C10: caches a `"_pairs"` entry into the
parameter mapping at its first invocation, as the notebook's
`stat_arb_strategy` does. -/
def cacheStrategy : Strategy := fun _ _ _ p =>
  (.noAction, if p.any (fun e => e.1 == "_pairs") then p else p ++ [("_pairs", 1)])

/-- Witness for C10: the `"_pairs"` entry written at step 0 is still
present in the mapping after step 1 of the two-bar run. -/
theorem params_threading_witness :
    containsKey (stateAfter md2 cacheStrategy 0 0 (initState 1000 []) 2).params
      "_pairs" = true := by
  have hpres : ∀ w pos t p, containsKey p "_pairs" = true →
      containsKey (cacheStrategy w pos t p).2 "_pairs" = true := by
    intro w pos t p h
    simp only [cacheStrategy, containsKey] at h ⊢
    rw [if_pos h]
    exact h
  exact (params_threading md2 cacheStrategy 0 0 (initState 1000 [])).2 "_pairs"
    hpres 1 2 (by omega) (by with_unfolding_all decide)

end Backtester
